import Mathlib

/-!
Shallow embedding of the CSS templating engine in `trees/css/css.go` of the
`gu` repository, together with proofs of the claims of the specification.

The engine consumes the output shape of the external `douceur` CSS library:
a stylesheet is an ordered list of rules, each rule carrying a kind
(qualified rule or at-rule), a raw prelude string, an ordered list of
selector strings, an ordered list of declarations, and an ordered list of
nested rules.  The declaration serialization (`String` /
`StringWithImportant`) is the documented behaviour of that library:
`"property: value"`, optionally followed by `" !important"`, followed by
`";"`.
-/

namespace GuCss

/-- Rule kinds of the external CSS library: a qualified (selector) rule or an
at-rule (`@media`, ...), mirroring `QualifiedRule` / `AtRule` of `douceur`. -/
inductive RuleKind : Type where
  | qualified : RuleKind
  | atRule : RuleKind
deriving DecidableEq, Repr

/-- A parsed CSS declaration: `Property`, `Value` and the `Important` flag,
mirroring `css.Declaration` of `douceur`. -/
structure Declaration : Type where
  property : String
  value : String
  important : Bool
deriving DecidableEq, Repr

/-- Rendering `Declaration.StringWithImportant` of `douceur`:
`property: value`, appends `" !important"` when both the option and the
`Important` flag are set, and terminates with `";"`. -/
def Declaration.stringWithImportant (d : Declaration) (option : Bool) : String :=
  d.property ++ ": " ++ d.value ++
    (if option && d.important then " !important" else "") ++ ";"

/-- Rendering `Declaration.String` of `douceur`: `StringWithImportant(true)`. -/
def Declaration.string (d : Declaration) : String :=
  d.stringWithImportant true

/-- A parsed CSS rule, mirroring `css.Rule` of `douceur`: kind, raw prelude
text, selectors, declarations and nested rules (populated for at-rules). -/
inductive CSSRule : Type where
  | mk : RuleKind → String → List String → List Declaration → List CSSRule → CSSRule
deriving Repr

/-- The `Kind` field of a CSS rule. -/
def CSSRule.kind : CSSRule → RuleKind
  | .mk k _ _ _ _ => k

/-- The raw `Prelude` field of a CSS rule. -/
def CSSRule.prelude : CSSRule → String
  | .mk _ pre _ _ _ => pre

/-- The `Selectors` field of a CSS rule. -/
def CSSRule.selectors : CSSRule → List String
  | .mk _ _ sels _ _ => sels

/-- The `Declarations` field of a CSS rule. -/
def CSSRule.declarations : CSSRule → List Declaration
  | .mk _ _ _ decls _ => decls

/-- The nested `Rules` field of a CSS rule. -/
def CSSRule.rules : CSSRule → List CSSRule
  | .mk _ _ _ _ rs => rs

/-- A parsed stylesheet: the ordered top-level `Rules` list of the
`css.Stylesheet` type of `douceur`. -/
structure Stylesheet : Type where
  rules : List CSSRule

/-- The loop body of `Rule.extend` in `css.go` (lines 64-79): scan the
top-level rules of the feed stylesheet in order, skip rules whose `Prelude` differs
from `item`; on the first rule whose prelude equals `item`, render each of
its declarations (`StringWithImportant(Important)` when `Important` is set,
plain `String()` otherwise) and stop (`break`). -/
def extendAttrs : List CSSRule → String → List String
  | [], _ => []
  | r :: rest, item =>
    if r.prelude ≠ item then extendAttrs rest item
    else r.declarations.map fun prop =>
      if prop.important then prop.stringWithImportant prop.important
      else prop.string

/-- Function `Rule.extend` of `css.go`: returns `""` when `feedStyle` is nil,
otherwise joins the rendered declarations of the first prelude-matching
feed rule with newlines. -/
def extend (feedStyle : Option Stylesheet) (item : String) : String :=
  match feedStyle with
  | none => ""
  | some st => String.intercalate "\n" (extendAttrs st.rules item)

/-- Whitespace characters trimmed by `strings.TrimSpace` of the Go standard
library: the ASCII spaces plus NEL and NBSP (the other Unicode space
classes are not modelled; no claim depends on them). -/
def isSpace (c : Char) : Bool :=
  c = ' ' || c = '\t' || c = '\n' || c = Char.ofNat 11 || c = Char.ofNat 12 ||
    c = '\r' || c = Char.ofNat 133 || c = Char.ofNat 160

/-- Translation of `strings.TrimSpace`: drop whitespace from both ends. -/
def goTrimSpace (s : String) : String :=
  ⟨((s.data.dropWhile isSpace).reverse.dropWhile isSpace).reverse⟩

/-- Translation of the call `strings.Replace(sel, "&", parentNode, -1)` in
`Rule.adjustName`: every occurrence of the one-character pattern `&` is
replaced by `parentNode`. -/
def replaceAmp : List Char → List Char → List Char
  | [], _ => []
  | c :: rest, parentNode =>
    if c = '&' then parentNode ++ replaceAmp rest parentNode
    else c :: replaceAmp rest parentNode

/-- Function `Rule.adjustName` of `css.go`: trim the selector
(`strings.TrimSpace`); if it contains `&` (`strings.Contains`), replace
every occurrence of `&` with `parentNode`; else if it starts with `:`
(`strings.HasPrefix`), prepend `parentNode` with no separator; otherwise
return it (trimmed) unchanged. -/
def adjustName (sel : String) (parentNode : String) : String :=
  let sel := goTrimSpace sel
  if sel.data.contains '&' then ⟨replaceAmp sel.data parentNode.data⟩
  else if sel.data.head? = some ':' then parentNode ++ "" ++ sel
  else sel

mutual

/-- Function `Rule.morphRule` of `css.go`: rewrite every selector of `base` with
`adjustName`, then walk the nested-rule list (`morphNested` renders the
`for _, rule := range base.Rules` loop). -/
def morphRule (base : CSSRule) (parentNode : String) : CSSRule :=
  match base with
  | .mk k pre sels decls rules =>
    .mk k pre (sels.map fun s => adjustName s parentNode) decls
      (morphNested rules parentNode)
termination_by sizeOf base
decreasing_by all_goals simp_wf <;> omega

/-- The nested-rule loop of `Rule.morphRule`: an at-rule is recursed into
with `morphRule`; any other nested rule has its selectors rewritten in
place and its own nested rules left untouched. -/
def morphNested (rules : List CSSRule) (parentNode : String) : List CSSRule :=
  match rules with
  | [] => []
  | ru :: rest =>
    (if ru.kind = RuleKind.atRule then morphRule ru parentNode
     else .mk ru.kind ru.prelude
        (ru.selectors.map fun s => adjustName s parentNode)
        ru.declarations ru.rules)
    :: morphNested rest parentNode
termination_by sizeOf rules
decreasing_by all_goals simp_wf <;> omega

end

namespace helpers

/-- Wrap-around of the two-complement 64-bit `int` arithmetic of Go. -/
def intWrap (x : Int) : Int := (x + 2 ^ 63) % 2 ^ 64 - 2 ^ 63

/-- The value `x` fits in the 64-bit `int` type of Go. -/
def inInt64Range (x : Int) : Prop := -2 ^ 63 ≤ x ∧ x < 2 ^ 63

instance (x : Int) : Decidable (inInt64Range x) := by
  unfold inInt64Range; infer_instance

/-- The template helper `"add"` of `css.go`: `func(a, b int) int { return a + b }`. -/
def add (a b : Int) : Int := intWrap (a + b)

/-- The template helper `"multiply"` of `css.go`: `func(a, b int) int { return a * b }`. -/
def multiply (a b : Int) : Int := intWrap (a * b)

/-- The template helper `"subtract"` of `css.go`: `func(a, b int) int { return b - a }`. -/
def subtract (a b : Int) : Int := intWrap (b - a)

end helpers

/-- Errors of `css.go` (template-execution, CSS-parse, dependency errors) are
opaque values propagated unchanged; we model them as strings. -/
abbrev GErr := String

/-- The `css.Rule` struct of `css.go`.  The compiled `template` together with
the `parser.Parse` of its output is abstracted into one function `tmplParse`
of the binding and of the `feedStyle` value visible during execution: the
bound `extend` helper is the only way template execution reads the mutable
state of the rule, and `extend` is a pure function of `feedStyle` (proved
separately), so this abstraction is faithful.  The `feed`, `feedStyle` and
`depends` fields mirror the Go struct.  Pointer sharing between Go rules
is not modelled: each occurrence of a rule in the `feed`/`depends` graph is
its own copy of the struct. -/
inductive GoRule (β : Type) : Type where
  | mk : (β → Option Stylesheet → Except GErr Stylesheet) → Option (GoRule β) →
      Option Stylesheet → List (GoRule β) → GoRule β

/-- The abstracted template-execute-and-parse step of a rule. -/
def GoRule.tmplParse {β : Type} : GoRule β → β → Option Stylesheet → Except GErr Stylesheet
  | .mk tp _ _ _ => tp

/-- The `feed` field of a rule. -/
def GoRule.feed {β : Type} : GoRule β → Option (GoRule β)
  | .mk _ f _ _ => f

/-- The mutable `feedStyle` field of a rule. -/
def GoRule.feedStyle {β : Type} : GoRule β → Option Stylesheet
  | .mk _ _ fs _ => fs

/-- The `depends` field of a rule. -/
def GoRule.depends {β : Type} : GoRule β → List (GoRule β)
  | .mk _ _ _ ds => ds

mutual

/-- Function `Rule.Stylesheet` of `css.go` with the mutable struct state
threaded explicitly: the result pairs the Go return `(*bcss.Stylesheet, error)`
with the rule tree as it stands after the call (the `r.feedStyle = sheet`
assignment and all mutations inside recursive calls).  Control flow follows
the source: resolve `feed` first (propagating its error with `feedStyle`
not yet assigned), store the resolved sheet into `feedStyle`, resolve every
`depends` entry in order (propagating the first error), execute the
template and parse its output, morph every parsed rule against
`parentNode`, and append the parsed rules after the accumulated `depends`
rules. -/
def runRule {β : Type} : GoRule β → β → String → Except GErr Stylesheet × GoRule β
  | .mk tp feed fs deps, bind, parentNode =>
    match feedStep feed fs bind parentNode with
    | (some e, feed', fs') => (.error e, .mk tp feed' fs' deps)
    | (none, feed', fs') =>
      match runDeps deps bind parentNode with
      | (.error e, deps') => (.error e, .mk tp feed' fs' deps')
      | (.ok depRules, deps') =>
        match tp bind fs' with
        | .error e => (.error e, .mk tp feed' fs' deps')
        | .ok own =>
          (.ok ⟨depRules ++ own.rules.map fun ru => morphRule ru parentNode⟩,
           .mk tp feed' fs' deps')
termination_by r => sizeOf r
decreasing_by all_goals simp_wf <;> omega

/-- The feed block of `Rule.Stylesheet` (`css.go` lines 87-94): when `feed`
is nil the `feedStyle` field keeps its previous value `fs`; otherwise the
feed is resolved first, its error (with `feedStyle` not yet assigned)
reported in the first component, and on success the resolved sheet is
assigned to `feedStyle`.  The second component is the updated `feed`
subtree. -/
def feedStep {β : Type} (feed : Option (GoRule β)) (fs : Option Stylesheet)
    (bind : β) (parentNode : String) :
    Option GErr × Option (GoRule β) × Option Stylesheet :=
  match feed with
  | none => (none, none, fs)
  | some f =>
    match runRule f bind parentNode with
    | (.error e, f') => (some e, some f', fs)
    | (.ok sheet, f') => (none, some f', some sheet)
termination_by sizeOf feed
decreasing_by all_goals simp_wf <;> omega

/-- The `for _, rule := range r.depends` loop of `Rule.Stylesheet`: resolve
each entry in order, appending its rules; on the first error return it,
leaving the remaining entries untouched. -/
def runDeps {β : Type} : List (GoRule β) → β → String → Except GErr (List CSSRule) × List (GoRule β)
  | [], _, _ => (.ok [], [])
  | d :: rest, bind, parentNode =>
    match runRule d bind parentNode with
    | (.error e, d') => (.error e, d' :: rest)
    | (.ok sheet, d') =>
      match runDeps rest bind parentNode with
      | (.error e, rest') => (.error e, d' :: rest')
      | (.ok rs, rest') => (.ok (sheet.rules ++ rs), d' :: rest')
termination_by l => sizeOf l
decreasing_by all_goals simp_wf <;> omega

end

/-- The rules a resolved `depends` entry contributes to the accumulating
output: the `Rules` of its sheet on success. -/
def depSheetRules : Except GErr Stylesheet → List CSSRule
  | .ok s => s.rules
  | .error _ => []

mutual

/-- All `Prelude` fields of a rule tree, in preorder. -/
def preludesOf (r : CSSRule) : List String :=
  match r with
  | .mk _ pre _ _ rs => pre :: preludesList rs
termination_by sizeOf r
decreasing_by all_goals simp_wf <;> omega

/-- All `Prelude` fields of the trees in a rule list, in preorder. -/
def preludesList (rs : List CSSRule) : List String :=
  match rs with
  | [] => []
  | r :: rest => preludesOf r ++ preludesList rest
termination_by sizeOf rs
decreasing_by all_goals simp_wf <;> omega

end

/-- A concrete parsed rule used to instantiate theorems with hypotheses. -/
def wRuleF : CSSRule := .mk .qualified ".f" [".f"] [⟨"color", "red", false⟩] []

/-- A concrete parsed rule contributed by a `depends` entry in witnesses. -/
def wRuleD : CSSRule := .mk .qualified ".d" [".d"] [] []

/-- A concrete Go rule whose template parses to `wRuleF`. -/
def wFeed : GoRule Unit := .mk (fun _ _ => .ok ⟨[wRuleF]⟩) none none []

/-- A concrete Go rule whose template parses to `wRuleD`. -/
def wDep : GoRule Unit := .mk (fun _ _ => .ok ⟨[wRuleD]⟩) none none []

/-- A concrete Go rule whose resolution fails. -/
def wFail : GoRule Unit := .mk (fun _ _ => .error "dep-failure") none none []

end GuCss
namespace GuCss

/-! ### Helper lemmas -/

theorem extendAttrs_nil_of_nomatch (rules : List CSSRule) (item : String)
    (h : ∀ q ∈ rules, q.prelude ≠ item) : extendAttrs rules item = [] := by
  induction rules with
  | nil => rfl
  | cons r rest ih =>
    have hr : r.prelude ≠ item := h r (by simp)
    simp only [extendAttrs, if_pos hr]
    exact ih fun q hq => h q (by simp [hq])

theorem extendAttrs_first_match (pre : List CSSRule) (r : CSSRule) (post : List CSSRule)
    (item : String) (hpre : ∀ q ∈ pre, q.prelude ≠ item) (hr : r.prelude = item) :
    extendAttrs (pre ++ r :: post) item =
      r.declarations.map (fun prop =>
        if prop.important then prop.stringWithImportant prop.important
        else prop.string) := by
  induction pre with
  | nil => simp [extendAttrs, hr]
  | cons q qs ih =>
    have hq : q.prelude ≠ item := hpre q (by simp)
    simp only [List.cons_append, extendAttrs, if_pos hq]
    exact ih fun x hx => hpre x (by simp [hx])

theorem renderDecl_eq (d : Declaration) :
    (if d.important then d.stringWithImportant d.important else d.string) =
      d.property ++ ": " ++ d.value ++
        (if d.important then " !important" else "") ++ ";" := by
  cases hd : d.important <;>
    simp [Declaration.stringWithImportant, Declaration.string, hd]

theorem replaceAmp_eq_flatMap (l : List Char) (p : List Char) :
    replaceAmp l p = l.flatMap fun c => if c = '&' then p else [c] := by
  induction l with
  | nil => rfl
  | cons c rest ih =>
    by_cases hc : c = '&' <;> simp [replaceAmp, hc, ih]

theorem intWrap_eq_of_inRange (x : Int) (h : helpers.inInt64Range x) :
    helpers.intWrap x = x := by
  unfold helpers.intWrap
  unfold helpers.inInt64Range at h
  omega

/-! ### Claims -/

/-- C2: for a populated feed stylesheet, `extend` scans the top-level rules
in order, takes only the first rule whose prelude equals `selectorName`,
renders each declaration with an `!important` marker exactly when its
important flag is set, and joins the rendered declarations with newlines;
all later matching rules (here: anything in `post`) are ignored. -/
theorem extend_first_match (st : Stylesheet) (item : String)
    (pre : List CSSRule) (r : CSSRule) (post : List CSSRule)
    (hsplit : st.rules = pre ++ r :: post)
    (hpre : ∀ q ∈ pre, q.prelude ≠ item) (hr : r.prelude = item) :
    extend (some st) item = String.intercalate "\n"
      (r.declarations.map fun d =>
        d.property ++ ": " ++ d.value ++
          (if d.important then " !important" else "") ++ ";") := by
  simp only [extend, hsplit, extendAttrs_first_match pre r post item hpre hr,
    renderDecl_eq]

/-- Witness for C2: the two-matching-rules example of the spec — only the
first rule with prelude `.a` contributes, yielding `color: red;`. -/
theorem extend_first_match_witness :
    extend (some ⟨[CSSRule.mk .qualified ".a" [".a"] [⟨"color", "red", false⟩] [],
                   CSSRule.mk .qualified ".a" [".a"] [⟨"color", "blue", false⟩] []]⟩)
      ".a" = "color: red;" :=
  (extend_first_match _ ".a" []
    (CSSRule.mk .qualified ".a" [".a"] [⟨"color", "red", false⟩] [])
    [CSSRule.mk .qualified ".a" [".a"] [⟨"color", "blue", false⟩] []]
    rfl (by simp) rfl).trans (by decide)

/-- C3: `extend` returns the empty string, and no error, both when the
feed stylesheet is nil and when no top-level rule of the feed has a
prelude equal to the selector name. -/
theorem extend_empty_on_missing (item : String) (st : Stylesheet)
    (h : ∀ q ∈ st.rules, q.prelude ≠ item) :
    extend none item = "" ∧ extend (some st) item = "" := by
  refine ⟨rfl, ?_⟩
  rw [extend, extendAttrs_nil_of_nomatch st.rules item h]
  rfl

/-- Witness for C3 at a concrete feed with a single non-matching rule. -/
theorem extend_empty_on_missing_witness :
    extend none ".z" = "" ∧ extend (some ⟨[wRuleF]⟩) ".z" = "" :=
  extend_empty_on_missing ".z" ⟨[wRuleF]⟩ (by decide)

/-- C4: selector rewriting first trims the selector; when the trimmed
selector contains `&`, every occurrence of `&` is replaced by the parent
scope (each character maps to itself except `&`, which maps to the whole
parent string); otherwise, when it starts with `:`, the parent scope is
prepended with no separator. -/
theorem adjustName_rewrite (sel parentNode : String) :
    ((goTrimSpace sel).data.contains '&' = true →
      (adjustName sel parentNode).data =
        (goTrimSpace sel).data.flatMap fun c =>
          if c = '&' then parentNode.data else [c]) ∧
    ((goTrimSpace sel).data.contains '&' = false →
      (goTrimSpace sel).data.head? = some ':' →
      adjustName sel parentNode = parentNode ++ goTrimSpace sel) := by
  constructor
  · intro h
    have hmem : '&' ∈ (goTrimSpace sel).data := List.mem_of_elem_eq_true h
    simp [adjustName, hmem, replaceAmp_eq_flatMap]
  · intro h1 h2
    have hmem : '&' ∉ (goTrimSpace sel).data := by simpa using h1
    simp [adjustName, hmem, h2]

/-- Witness for C4: `" &:hover "` against `.btn` takes the replacement
branch; `":focus"` against `.input` takes the pseudo-selector branch. -/
theorem adjustName_rewrite_witness :
    (adjustName " &:hover " ".btn").data =
      ((goTrimSpace " &:hover ").data.flatMap fun c =>
        if c = '&' then ".btn".data else [c]) ∧
    adjustName ":focus" ".input" = ".input" ++ goTrimSpace ":focus" :=
  ⟨(adjustName_rewrite " &:hover " ".btn").1 (by decide),
   (adjustName_rewrite ":focus" ".input").2 (by decide) (by decide)⟩

/-- Counterexample to C5 as stated: `" a"` contains no `&` and no leading
`:`, yet rewriting is not the identity on it — the code trims the
selector first. -/
theorem adjustName_untrimmed_changed :
    ¬ (adjustName " a" ".p" = " a") := by decide

/-- C5 amended: on a selector already free of leading and trailing
whitespace that contains no `&` and does not start with `:`, rewriting is
the identity for every parent scope. -/
theorem adjustName_plain_id (sel parentNode : String)
    (htrim : goTrimSpace sel = sel)
    (hamp : sel.data.contains '&' = false)
    (hcolon : sel.data.head? ≠ some ':') :
    adjustName sel parentNode = sel := by
  have hmem : '&' ∉ sel.data := by simpa using hamp
  simp [adjustName, htrim, hmem, hcolon]

/-- Witness for the amended C5 at the plain selector `.card`. -/
theorem adjustName_plain_id_witness : adjustName ".card" ".p" = ".card" :=
  adjustName_plain_id ".card" ".p" (by decide) (by decide) (by decide)

/-- C8: on every pair of `int` values whose mathematical sum, product and
reversed difference stay in the 64-bit range, the template helpers return
`subtract(a, b) = b - a` (reversed operand order), `add(a, b) = a + b`
and `multiply(a, b) = a * b`. -/
theorem helpers_semantics (a b : Int)
    (ha : helpers.inInt64Range (a + b)) (hm : helpers.inInt64Range (a * b))
    (hs : helpers.inInt64Range (b - a)) :
    helpers.subtract a b = b - a ∧ helpers.add a b = a + b ∧
      helpers.multiply a b = a * b := by
  unfold helpers.subtract helpers.add helpers.multiply
  exact ⟨intWrap_eq_of_inRange _ hs, intWrap_eq_of_inRange _ ha,
    intWrap_eq_of_inRange _ hm⟩

/-- Witness for C8 at `a = 5`, `b = 3`: in particular
`subtract 5 3 = 3 - 5 = -2`, showing the reversed operand order. -/
theorem helpers_semantics_witness :
    helpers.subtract 5 3 = 3 - 5 ∧ helpers.add 5 3 = 5 + 3 ∧
      helpers.multiply 5 3 = 5 * 3 :=
  helpers_semantics 5 3 (by decide) (by decide) (by decide)

end GuCss
namespace GuCss

theorem morphNested_eq_map (rules : List CSSRule) (parentNode : String) :
    morphNested rules parentNode = rules.map fun ru =>
      if ru.kind = RuleKind.atRule then morphRule ru parentNode
      else CSSRule.mk ru.kind ru.prelude
        (ru.selectors.map fun s => adjustName s parentNode)
        ru.declarations ru.rules := by
  induction rules with
  | nil => simp [morphNested]
  | cons r rest ih => rw [morphNested]; simp [ih]

/-- C7: rewriting a parsed rule applies `adjustName` to every selector of
the top-level rule, recurses with the same function into nested rules of
at-rule kind (hence to arbitrary at-rule depth), and rewrites the
selectors of non-at-rule nested rules directly, leaving their own nested
rule lists untouched (the `else` branch keeps `ru.rules` unchanged). -/
theorem morphRule_structure (base : CSSRule) (parentNode : String) :
    (morphRule base parentNode).selectors =
      base.selectors.map (fun s => adjustName s parentNode) ∧
    (morphRule base parentNode).rules = base.rules.map fun ru =>
      if ru.kind = RuleKind.atRule then morphRule ru parentNode
      else CSSRule.mk ru.kind ru.prelude
        (ru.selectors.map fun s => adjustName s parentNode)
        ru.declarations ru.rules := by
  cases base with
  | mk k pre sels decls rules =>
    rw [morphRule]
    exact ⟨rfl, morphNested_eq_map rules parentNode⟩

theorem morphRule_fields (r : CSSRule) (parentNode : String) :
    (morphRule r parentNode).prelude = r.prelude ∧
    (morphRule r parentNode).declarations = r.declarations ∧
    (morphRule r parentNode).kind = r.kind := by
  cases r with
  | mk k pre sels decls rules =>
    rw [morphRule]
    exact ⟨rfl, rfl, rfl⟩

mutual

theorem preludesOf_morph : ∀ (r : CSSRule) (parentNode : String),
    preludesOf (morphRule r parentNode) = preludesOf r
  | .mk k pre sels decls rules, parentNode => by
    rw [morphRule, preludesOf, preludesOf]
    exact congrArg (pre :: ·) (preludesList_morphNested rules parentNode)
termination_by r _ => sizeOf r
decreasing_by all_goals simp_wf <;> omega

theorem preludesList_morphNested : ∀ (rules : List CSSRule) (parentNode : String),
    preludesList (morphNested rules parentNode) = preludesList rules
  | [], _ => by rw [morphNested]
  | ru :: rest, parentNode => by
    rw [morphNested]
    by_cases h : ru.kind = RuleKind.atRule
    · rw [preludesList, preludesList, if_pos h,
        preludesOf_morph ru parentNode, preludesList_morphNested rest parentNode]
    · cases ru with
      | mk k2 pre2 sels2 decls2 rules2 =>
        rw [preludesList, preludesList, if_neg h,
          preludesList_morphNested rest parentNode]
        simp only [CSSRule.kind, CSSRule.prelude, CSSRule.selectors,
          CSSRule.declarations, CSSRule.rules, preludesOf]
termination_by rules _ => sizeOf rules
decreasing_by all_goals simp_wf <;> omega

end

theorem extendAttrs_map_morph (rules : List CSSRule) (parentNode item : String) :
    extendAttrs (rules.map fun ru => morphRule ru parentNode) item =
      extendAttrs rules item := by
  induction rules with
  | nil => rfl
  | cons r rest ih =>
    have hp := (morphRule_fields r parentNode).1
    have hd := (morphRule_fields r parentNode).2.1
    by_cases h : r.prelude = item
    · simp [extendAttrs, hp, hd, h]
    · simp [extendAttrs, hp, hd, h, ih]

/-- C9: selector rewriting mutates only the `Selectors` of each rule: the
`Prelude` is preserved at every depth and the declarations are untouched,
so an `extend` lookup against a feed stylesheet whose rules were all
morphed behaves exactly as against the unrewritten stylesheet — it
matches on the original, unrewritten selector text. -/
theorem morph_prelude_frame (r : CSSRule) (st : Stylesheet) (parentNode item : String) :
    (morphRule r parentNode).prelude = r.prelude ∧
    preludesOf (morphRule r parentNode) = preludesOf r ∧
    (morphRule r parentNode).declarations = r.declarations ∧
    extend (some ⟨st.rules.map fun ru => morphRule ru parentNode⟩) item =
      extend (some st) item := by
  refine ⟨(morphRule_fields r parentNode).1, preludesOf_morph r parentNode,
    (morphRule_fields r parentNode).2.1, ?_⟩
  simp [extend, extendAttrs_map_morph]

end GuCss
namespace GuCss

theorem runDeps_fst_ok {β : Type} (deps : List (GoRule β)) (bind : β) (parentNode : String)
    (h : ∀ d ∈ deps, ∃ s, (runRule d bind parentNode).1 = .ok s) :
    (runDeps deps bind parentNode).1 =
      .ok (deps.map fun d => depSheetRules (runRule d bind parentNode).1).flatten := by
  induction deps with
  | nil => simp [runDeps, depSheetRules]
  | cons d rest ih =>
    obtain ⟨s, hs⟩ := h d (by simp)
    have hrest := ih fun x hx => h x (by simp [hx])
    rcases hp : runRule d bind parentNode with ⟨res, d1⟩
    rw [hp] at hs
    simp only at hs
    subst hs
    rcases hq : runDeps rest bind parentNode with ⟨res2, rest1⟩
    rw [hq] at hrest
    simp only at hrest
    subst hrest
    simp [runDeps, hp, hq, depSheetRules]

/-- C1: when the feed resolution (if any), every `depends` resolution and
the own template-execute-and-parse step all succeed, `Stylesheet` returns
a sheet whose rule list is exactly the concatenation of the resolved
rules of the `depends` entries, in order, followed by the morphed own
rules; the resolved feed sheet `fsVis` is only passed to template
execution and its rules are not part of the output. -/
theorem stylesheet_rule_order {β : Type}
    (tp : β → Option Stylesheet → Except GErr Stylesheet)
    (feed feed' : Option (GoRule β)) (fs fsVis : Option Stylesheet)
    (deps : List (GoRule β)) (bind : β) (parentNode : String) (own : Stylesheet)
    (hfeed : feedStep feed fs bind parentNode = (none, feed', fsVis))
    (hdeps : ∀ d ∈ deps, ∃ s, (runRule d bind parentNode).1 = .ok s)
    (hown : tp bind fsVis = .ok own) :
    (runRule (GoRule.mk tp feed fs deps) bind parentNode).1 =
      .ok ⟨(deps.map fun d => depSheetRules (runRule d bind parentNode).1).flatten
        ++ own.rules.map fun ru => morphRule ru parentNode⟩ := by
  have hd := runDeps_fst_ok deps bind parentNode hdeps
  rcases hq : runDeps deps bind parentNode with ⟨res2, deps1⟩
  rw [hq] at hd
  simp only at hd
  subst hd
  simp [runRule, hfeed, hq, hown]

/-- Witness for C1: a rule with a feed, one depends entry and an own
template that parses to the empty sheet; the output is exactly the rules
of the depends entry and the feed contributes nothing. -/
theorem stylesheet_rule_order_witness :
    (runRule (GoRule.mk (fun (_ : Unit) (_ : Option Stylesheet) => Except.ok (⟨[]⟩ : Stylesheet))
        (some wFeed) none [wDep]) () ".p").1 =
      .ok ⟨([wDep].map fun d => depSheetRules (runRule d () ".p").1).flatten
        ++ (⟨[]⟩ : Stylesheet).rules.map fun ru => morphRule ru ".p"⟩ :=
  stylesheet_rule_order _ (some wFeed) (some wFeed) none (some ⟨[morphRule wRuleF ".p"]⟩)
    [wDep] () ".p" ⟨[]⟩
    (by simp [feedStep, runRule, runDeps, wFeed])
    (by
      intro d hd
      rw [List.mem_singleton] at hd
      subst hd
      exact ⟨⟨[morphRule wRuleD ".p"]⟩, by simp [runRule, runDeps, feedStep, wDep]⟩)
    rfl

/-- C6: if the feed block passes (no feed, or feed resolved) and the
first `depends` entry fails with error `e`, the whole call fails with the
same error `e`, and the remaining `depends` entries are returned exactly
as given — their resolution is never invoked and the result does not
depend on them. -/
theorem depends_error_short_circuit {β : Type}
    (tp : β → Option Stylesheet → Except GErr Stylesheet)
    (feed feed' : Option (GoRule β)) (fs fsVis : Option Stylesheet)
    (d1 d1' : GoRule β) (rest : List (GoRule β)) (bind : β) (parentNode : String)
    (e : GErr)
    (hfeed : feedStep feed fs bind parentNode = (none, feed', fsVis))
    (hd1 : runRule d1 bind parentNode = (.error e, d1')) :
    runRule (GoRule.mk tp feed fs (d1 :: rest)) bind parentNode
      = (.error e, GoRule.mk tp feed' fsVis (d1' :: rest)) := by
  simp [runRule, hfeed, runDeps, hd1]

/-- Witness for C6: the first depends entry fails with `"dep-failure"`;
the outer call returns exactly that error and the second entry `wDep` is
untouched in the returned state. -/
theorem depends_error_short_circuit_witness :
    runRule (GoRule.mk (fun (_ : Unit) (_ : Option Stylesheet) => Except.ok (⟨[]⟩ : Stylesheet))
        none none [wFail, wDep]) () ".p"
      = (.error "dep-failure",
         GoRule.mk (fun _ _ => Except.ok ⟨[]⟩) none none [wFail, wDep]) :=
  depends_error_short_circuit _ none none none none wFail wFail [wDep] () ".p"
    "dep-failure" (by simp [feedStep]) (by simp [runRule, runDeps, feedStep, wFail])

/-- C10: when the feed resolves to `sheet` but the call then fails (a
depends entry, template execution or parsing), the returned rule state
already holds `sheet` in its `feedStyle` field — the cache overwrite is
kept despite the error, so the call is not atomic in this field. -/
theorem feedStyle_overwrite_on_later_failure {β : Type}
    (tp : β → Option Stylesheet → Except GErr Stylesheet) (f f' : GoRule β)
    (fs : Option Stylesheet) (deps : List (GoRule β)) (bind : β) (parentNode : String)
    (sheet : Stylesheet) (e : GErr) (r' : GoRule β)
    (hfeed : runRule f bind parentNode = (.ok sheet, f'))
    (hfail : runRule (GoRule.mk tp (some f) fs deps) bind parentNode = (.error e, r')) :
    r'.feedStyle = some sheet := by
  have hstep : feedStep (some f) fs bind parentNode = (none, some f', some sheet) := by
    simp [feedStep, hfeed]
  rcases hq : runDeps deps bind parentNode with ⟨res2, deps1⟩
  cases res2 with
  | error e2 =>
    simp only [runRule, hstep, hq] at hfail
    obtain ⟨h1, h2⟩ := Prod.mk.injEq .. ▸ hfail
    cases h2
    rfl
  | ok depRules =>
    cases htp : tp bind (some sheet) with
    | error e3 =>
      simp only [runRule, hstep, hq, htp] at hfail
      obtain ⟨h1, h2⟩ := Prod.mk.injEq .. ▸ hfail
      cases h2
      rfl
    | ok own =>
      simp only [runRule, hstep, hq, htp] at hfail
      exact absurd (congrArg Prod.fst hfail) (by simp)

/-- Witness for C10: the feed resolves, the own template step fails with
`"parse-failure"`; the state returned with the error carries the freshly
resolved feed sheet in `feedStyle`. -/
theorem feedStyle_overwrite_on_later_failure_witness :
    (runRule (GoRule.mk (fun (_ : Unit) (_ : Option Stylesheet) =>
        (Except.error "parse-failure" : Except GErr Stylesheet))
      (some wFeed) none []) () ".p").2.feedStyle = some ⟨[morphRule wRuleF ".p"]⟩ :=
  feedStyle_overwrite_on_later_failure
    (fun (_ : Unit) (_ : Option Stylesheet) =>
      (Except.error "parse-failure" : Except GErr Stylesheet))
    wFeed wFeed none [] () ".p" ⟨[morphRule wRuleF ".p"]⟩ "parse-failure" _
    (by simp [runRule, runDeps, feedStep, wFeed])
    (by simp [runRule, runDeps, feedStep, wFeed])

end GuCss
